import Mathlib

/-!
Verification of the statistical-arbitrage research toolkit.

Shallow embedding of the core modules:
* `stat_arb/data.py`    — FX pair parsing and currency conversion;
* `stat_arb/hedge.py`   — OLS hedge-ratio estimation and spread construction;
* `stat_arb/signals.py` — rolling Bollinger bands; and
* `stat_arb/backtest.py` — the single-position backtesting state machine.

Modelling conventions: price/spread values are exact numbers (`ℚ` where the
code needs no square root, `ℝ` for the band/backtest pipeline whose rolling
standard deviation takes a square root); timestamps are natural numbers
(positions in the strictly increasing, duplicate-free UTC index the data
model guarantees, so label lookup `loc[timestamp]` coincides with positional
lookup); a pandas `Series` is a `List` of values (aligned series share
positions), or a `List (ℕ × ℚ)` of (timestamp, value) rows where index
alignment itself is being modelled; "not-a-number" warm-up entries of a
rolling computation are `Option.none`; a Python `raise` is `Except.error`.
-/

namespace StatArb

/-! ### data.py -/

/-- The alphabetic characters of a string, as Python's
`"".join(ch for ch in ticker if ch.isalpha())`. -/
def alphaChars (s : String) : List Char :=
  s.toList.filter Char.isAlpha

/-- `_parse_fx_pair` from `stat_arb/data.py`: keep the alphabetic characters
of the ticker; if there are not exactly six of them raise `ValueError`;
otherwise return the first three and the next three, uppercased. -/
def parseFxPair (ticker : String) : Except String (String × String) :=
  let letters := ticker.toList.filter Char.isAlpha
  if letters.length = 6 then
    Except.ok (((letters.take 3).map Char.toUpper).asString,
               (((letters.drop 3).take 3).map Char.toUpper).asString)
  else
    Except.error ("Unable to infer FX pair structure from ticker " ++ ticker
      ++ ". Provide a 6-letter pair")

/-- The first three alphabetic characters of a ticker, uppercased (the spec's
"3-letter base code"). -/
def firstAlpha3Upper (t : String) : String :=
  (((t.toList.filter Char.isAlpha).map Char.toUpper).take 3).asString

/-- The fourth to sixth alphabetic characters of a ticker, uppercased (the
spec's "3-letter quote code"). -/
def nextAlpha3Upper (t : String) : String :=
  ((((t.toList.filter Char.isAlpha).map Char.toUpper).drop 3).take 3).asString

/-- `_convert_currency` from `stat_arb/data.py`.  The two series are the
already-aligned frame columns of `load_pair_data` (equal length, shared
index), so pandas' index-aligned `*` and `/` are positionwise `zipWith`.
Note the source parses the FX ticker *before* the equal-currency check. -/
def convertCurrency (prices : List ℚ) (sourceCurrency baseCurrency : String)
    (fxPair : String) (fxSeries : List ℚ) : Except String (List ℚ) :=
  let src := sourceCurrency.map Char.toUpper
  let base := baseCurrency.map Char.toUpper
  match parseFxPair fxPair with
  | Except.error e => Except.error e
  | Except.ok (fxBase, fxQuote) =>
    if src = base then Except.ok prices
    else if src = fxBase ∧ base = fxQuote then
      Except.ok (List.zipWith (· * ·) prices fxSeries)
    else if src = fxQuote ∧ base = fxBase then
      Except.ok (List.zipWith (· / ·) prices fxSeries)
    else
      Except.error ("FX ticker " ++ fxPair ++ " is incompatible with conversion from "
        ++ src ++ " to " ++ base ++ ".")

/-! ### hedge.py -/

/-- OLS hedge ratio estimation result (`stat_arb/hedge.py`).  The
`model_summary` diagnostic text of the source is presentational and omitted. -/
structure HedgeRatioResult where
  ratio : ℚ
  intercept : ℚ
deriving DecidableEq, Repr

/-- `pd.concat([a, b], axis=1, join="inner").dropna()` on two series with
unique timestamps: the rows whose timestamp occurs in both series.  Values
are total here, so `dropna` removes nothing further. -/
def innerJoin (a b : List (ℕ × ℚ)) : List (ℕ × ℚ × ℚ) :=
  a.filterMap (fun p => (b.lookup p.1).map (fun v => (p.1, p.2, v)))

/-- `estimate_hedge_ratio` from `stat_arb/hedge.py`: align the two series by
inner join, then fit `y = ratio·x (+ intercept)` by ordinary least squares.
The source solves via `statsmodels.OLS` (pseudo-inverse); on full-rank data
that is the normal-equation solution written here, and for the rank-deficient
single-regressor case `Σx² = 0` the pseudo-inverse gives ratio `0`, which is
also the value of ℚ's total division below.  There is no data-sufficiency
check anywhere on this path: no input makes it return `Except.error`. -/
def estimate_hedge_ratio (seriesA seriesB : List (ℕ × ℚ))
    (addIntercept : Bool) : Except String HedgeRatioResult :=
  let aligned := innerJoin seriesA seriesB
  let y := aligned.map (fun r => r.2.1)
  let x := aligned.map (fun r => r.2.2)
  if addIntercept then
    let n : ℚ := aligned.length
    let sx := x.sum
    let sy := y.sum
    let sxx := (x.map (fun v => v * v)).sum
    let sxy := (List.zipWith (· * ·) x y).sum
    let ratio := (n * sxy - sx * sy) / (n * sxx - sx * sx)
    Except.ok { ratio := ratio, intercept := (sy - ratio * sx) / n }
  else
    let sxx := (x.map (fun v => v * v)).sum
    let sxy := (List.zipWith (· * ·) x y).sum
    Except.ok { ratio := sxy / sxx, intercept := 0 }

/-- `compute_spread` from `stat_arb/hedge.py`: `A - (ratio·B + intercept)`,
positionwise over the aligned pair. -/
def compute_spread (seriesA seriesB : List ℚ) (hedgeRatio intercept : ℚ) : List ℚ :=
  List.zipWith (fun a b => a - (hedgeRatio * b + intercept)) seriesA seriesB

/-! ### signals.py -/

/-- The mean of a list of reals (`np`/pandas mean of a full window). -/
noncomputable def listMean (l : List ℝ) : ℝ :=
  l.sum / l.length

/-- Population variance (`ddof = 0`) of a list of reals. -/
noncomputable def popVar (l : List ℝ) : ℝ :=
  ((l.map fun x => (x - listMean l) ^ 2).sum) / l.length

/-- Population standard deviation (`.std(ddof=0)`): the square root of the
population variance. -/
noncomputable def popStd (l : List ℝ) : ℝ :=
  Real.sqrt (popVar l)

/-- The trailing observation window pandas' `rolling(window=w)` sees at
position `i`: the last up-to-`w` of the first `i + 1` elements. -/
def windowAt (w : ℕ) (xs : List ℝ) (i : ℕ) : List ℝ :=
  (xs.take (i + 1)).drop (i + 1 - w)

/-- `series.rolling(window=w, min_periods=w).apply(f)`: at each position the
statistic `f` of the trailing window of `w` observations, undefined (`none`)
until `w` observations have accumulated. -/
noncomputable def rollingApply (w : ℕ) (f : List ℝ → ℝ) (xs : List ℝ) : List (Option ℝ) :=
  (List.range xs.length).map fun i =>
    if i + 1 < w then none else some (f (windowAt w xs i))

/-- Positionwise arithmetic on two series of the same index, with pandas'
not-a-number propagation: defined only where both operands are. -/
def optZipWith (f : ℝ → ℝ → ℝ) (a b : List (Option ℝ)) : List (Option ℝ) :=
  List.zipWith (fun x y =>
    match x, y with
    | some x, some y => some (f x y)
    | _, _ => none) a b

/-- `BollingerBands` from `stat_arb/signals.py`. -/
structure BollingerBands where
  window : ℕ
  mean : List (Option ℝ)
  upper : List (Option ℝ)
  lower : List (Option ℝ)
  std : List (Option ℝ)

/-- `compute_bollinger_bands` from `stat_arb/signals.py`: rolling mean and
rolling population standard deviation over trailing windows of exactly
`window` observations, `upper = mean + num_std·std`,
`lower = mean − num_std·std`. -/
noncomputable def compute_bollinger_bands (spread : List ℝ) (window : ℕ)
    (num_std : ℝ) : BollingerBands :=
  let rollingMean := rollingApply window listMean spread
  let rollingStd := rollingApply window popStd spread
  { window := window
    mean := rollingMean
    upper := optZipWith (fun m s => m + num_std * s) rollingMean rollingStd
    lower := optZipWith (fun m s => m - num_std * s) rollingMean rollingStd
    std := rollingStd }

/-! ### backtest.py -/

/-- `Trade` from `stat_arb/backtest.py`: a completed trade, materialized at
exit.  `side` is the source's `"long"` / `"short"` string. -/
structure Trade where
  entry_time : ℕ
  exit_time : ℕ
  side : String
  entry_spread : ℝ
  exit_spread : ℝ
  pnl : ℝ
  fee : ℝ

/-- `BacktestStats` from `stat_arb/backtest.py`. -/
structure BacktestStats where
  num_trades : ℕ
  win_rate : ℝ
  avg_win : ℝ
  avg_loss : ℝ
  total_pnl : ℝ
  sharpe : ℝ
  max_drawdown : ℝ

/-- `BacktestResult` from `stat_arb/backtest.py`. -/
structure BacktestResult where
  window : ℕ
  bands : BollingerBands
  trades : List Trade
  equity_curve : List ℝ
  stats : BacktestStats

/-- `equity_curve.diff().dropna()`: the period-over-period changes
`l[i+1] − l[i]` (the leading not-a-number of `diff` dropped). -/
def listDiff (l : List ℝ) : List ℝ :=
  List.zipWith (· - ·) l.tail l

/-- `equity_curve.cummax()` given the running maximum so far. -/
def cummaxFrom (m : ℝ) : List ℝ → List ℝ
  | [] => []
  | x :: rest => (max m x) :: cummaxFrom (max m x) rest

/-- `equity_curve.cummax()`: the running maximum. -/
def cummax : List ℝ → List ℝ
  | [] => []
  | x :: rest => x :: cummaxFrom x rest

/-- The minimum of a non-empty list (`drawdowns.min()`); `0` on `[]`, a case
the caller guards. -/
def listMin : List ℝ → ℝ
  | [] => 0
  | x :: rest => rest.foldl min x

/-- `_compute_stats` from `stat_arb/backtest.py`. -/
noncomputable def computeStats (equity_curve : List ℝ) (trades : List Trade) :
    BacktestStats :=
  let pnls := trades.map (·.pnl)
  let total_pnl := pnls.sum
  let wins := pnls.filter (fun p => 0 < p)
  let losses := pnls.filter (fun p => p < 0)
  let num_trades := trades.length
  let win_rate : ℝ := if num_trades = 0 then 0 else (wins.length : ℝ) / num_trades
  let avg_win := if wins = [] then 0 else listMean wins
  let avg_loss := if losses = [] then 0 else listMean losses
  let returns := listDiff equity_curve
  let sharpe := if returns ≠ [] ∧ popStd returns ≠ 0
    then listMean returns / popStd returns else 0
  let drawdowns := List.zipWith (· - ·) equity_curve (cummax equity_curve)
  let max_drawdown := if drawdowns = [] then 0 else listMin drawdowns
  { num_trades := num_trades
    win_rate := win_rate
    avg_win := avg_win
    avg_loss := avg_loss
    total_pnl := total_pnl
    sharpe := sharpe
    max_drawdown := max_drawdown }

/-- The loop state of `backtest_bollinger`: the accumulated trade log,
realized equity, per-timestamp equity values, and the open-position
variables (`position ∈ {0, 1, −1}`, `entry_price`, `entry_time`). -/
structure BtState where
  trades : List Trade
  equity : ℝ
  equityValues : List ℝ
  position : Int
  entryPrice : ℝ
  entryTime : Option ℕ

/-- The state before the first iteration of `backtest_bollinger`. -/
def initState : BtState :=
  { trades := [], equity := 0, equityValues := [], position := 0,
    entryPrice := 0, entryTime := none }

/-- One iteration of the `backtest_bollinger` loop at timestamp `t` with
spread value `v` and band values `m`/`u`/`l` (`none` = pandas not-a-number):
the warm-up guard, the flat/long/short transition logic, and the
end-of-iteration append of the running equity. -/
noncomputable def step (fee : ℝ) (t : ℕ) (s : BtState) (v : ℝ)
    (m u l : Option ℝ) : BtState :=
  match m, u, l with
  | some mean, some upper, some lower =>
    if s.position = 0 then
      if v ≤ lower then
        { s with position := 1, entryPrice := v, entryTime := some t,
                 equityValues := s.equityValues ++ [s.equity] }
      else if v ≥ upper then
        { s with position := -1, entryPrice := v, entryTime := some t,
                 equityValues := s.equityValues ++ [s.equity] }
      else
        { s with equityValues := s.equityValues ++ [s.equity] }
    else if s.position = 1 then
      if v ≥ mean then
        let pnl := v - s.entryPrice - fee
        let tr : Trade := ⟨s.entryTime.getD 0, t, "long", s.entryPrice, v, pnl, fee⟩
        { trades := s.trades ++ [tr]
          equity := s.equity + pnl
          equityValues := s.equityValues ++ [s.equity + pnl]
          position := 0
          entryPrice := s.entryPrice
          entryTime := none }
      else
        { s with equityValues := s.equityValues ++ [s.equity] }
    else if s.position = -1 then
      if v ≤ mean then
        let pnl := s.entryPrice - v - fee
        let tr : Trade := ⟨s.entryTime.getD 0, t, "short", s.entryPrice, v, pnl, fee⟩
        { trades := s.trades ++ [tr]
          equity := s.equity + pnl
          equityValues := s.equityValues ++ [s.equity + pnl]
          position := 0
          entryPrice := s.entryPrice
          entryTime := none }
      else
        { s with equityValues := s.equityValues ++ [s.equity] }
    else
      { s with equityValues := s.equityValues ++ [s.equity] }
  | _, _, _ =>
    { s with equityValues := s.equityValues ++ [s.equity] }

/-- The `for timestamp, value in spread.items()` loop of
`backtest_bollinger`, running over the remaining rows
`(value, mean, upper, lower)` with `t` the timestamp of the first of them. -/
noncomputable def btRun (fee : ℝ) : ℕ → List (ℝ × Option ℝ × Option ℝ × Option ℝ) →
    BtState → BtState
  | _, [], s => s
  | t, (v, m, u, l) :: rest, s => btRun fee (t + 1) rest (step fee t s v m u l)

/-- The per-timestamp rows `(value, mean, upper, lower)` the loop of
`backtest_bollinger` reads: the spread zipped with the three band series
computed from it (all four lists have the spread's length). -/
noncomputable def btRows (spread : List ℝ) (window : ℕ) (num_std : ℝ) :
    List (ℝ × Option ℝ × Option ℝ × Option ℝ) :=
  let bands := compute_bollinger_bands spread window num_std
  spread.zip (bands.mean.zip (bands.upper.zip bands.lower))

/-- `backtest_bollinger` from `stat_arb/backtest.py`. -/
noncomputable def backtest_bollinger (spread : List ℝ) (window : ℕ)
    (num_std : ℝ) (fee : ℝ) : BacktestResult :=
  let bands := compute_bollinger_bands spread window num_std
  let final := btRun fee 0 (btRows spread window num_std) initState
  { window := window
    bands := bands
    trades := final.trades
    equity_curve := final.equityValues
    stats := computeStats final.equityValues final.trades }

/-- `run_multi_window_backtest` from `stat_arb/backtest.py`: the result
mapping as an association list in the windows' iteration order. -/
noncomputable def run_multi_window_backtest (spread : List ℝ) (windows : List ℕ)
    (num_std : ℝ) (fee : ℝ) : List (ℕ × BacktestResult) :=
  windows.map fun w => (w, backtest_bollinger spread w num_std fee)

/-! ### Specification-side state machine and observers

The spec describes the backtest as a three-state machine
FLAT / LONG / SHORT; the definitions below transcribe that description
(spec §4.5) so the source embedding can be proved to refine it. -/

/-- The spec's engine state: FLAT, or an open LONG/SHORT position carrying
its entry time and entry spread. -/
inductive SpecState where
  | flat : SpecState
  | long : ℕ → ℝ → SpecState
  | short : ℕ → ℝ → SpecState

/-- One spec transition (spec §4.5): while any of mean/upper/lower is
undefined nothing happens; FLAT enters long at `value ≤ lower`, short at
`value ≥ upper`, recording entry time and entry spread; LONG exits at
`value ≥ mean` emitting a long trade with `pnl = exit − entry − fee`; SHORT
exits at `value ≤ mean` emitting a short trade with
`pnl = entry − exit − fee`.  All comparisons are inclusive. -/
noncomputable def specStep (fee : ℝ) (t : ℕ) (v : ℝ) (m u l : Option ℝ) :
    SpecState → SpecState × Option Trade
  | st =>
    match m, u, l with
    | some mean, some upper, some lower =>
      match st with
      | SpecState.flat =>
        if v ≤ lower then (SpecState.long t v, none)
        else if v ≥ upper then (SpecState.short t v, none)
        else (SpecState.flat, none)
      | SpecState.long e es =>
        if v ≥ mean then (SpecState.flat, some ⟨e, t, "long", es, v, v - es - fee, fee⟩)
        else (SpecState.long e es, none)
      | SpecState.short e es =>
        if v ≤ mean then (SpecState.flat, some ⟨e, t, "short", es, v, es - v - fee, fee⟩)
        else (SpecState.short e es, none)
    | _, _, _ => (st, none)

/-- Running the spec machine over the rows, collecting the emitted trades in
order. -/
noncomputable def specRun (fee : ℝ) : ℕ → List (ℝ × Option ℝ × Option ℝ × Option ℝ) →
    SpecState → List Trade
  | _, [], _ => []
  | t, (v, m, u, l) :: rest, st =>
    (specStep fee t v m u l st).2.toList ++ specRun fee (t + 1) rest (specStep fee t v m u l st).1

/-- Observer: the successive values of the source's `position` variable — its
value entering each loop iteration and after the last one. -/
noncomputable def posStates (fee : ℝ) : ℕ → List (ℝ × Option ℝ × Option ℝ × Option ℝ) →
    BtState → List Int
  | _, [], s => [s.position]
  | t, (v, m, u, l) :: rest, s => s.position :: posStates fee (t + 1) rest (step fee t s v m u l)

/-- The position trace of a full `backtest_bollinger` run. -/
noncomputable def posTrace (spread : List ℝ) (window : ℕ) (num_std fee : ℝ) : List Int :=
  posStates fee 0 (btRows spread window num_std) initState

/-- The number of completed entry/exit cycles visible in a position trace:
adjacent steps where an open position (`≠ 0`) returns to flat (`= 0`). -/
def countCycles : List Int → ℕ
  | p :: q :: rest => (if p ≠ 0 ∧ q = 0 then 1 else 0) + countCycles (q :: rest)
  | _ => 0

/-- The spec's trailing window of `w` observations ending at position `i`:
drop everything before the window, then take `w`. -/
def trailingWindow (w : ℕ) (xs : List ℝ) (i : ℕ) : List ℝ :=
  (xs.drop (i + 1 - w)).take w

/-- Correspondence between the source's loop state and the spec's
FLAT/LONG/SHORT state: `position = 0` is FLAT, `position = 1` an open long
whose entry time/spread are the recorded `entry_time`/`entry_price`,
`position = -1` the same for a short. -/
def Rel (s : BtState) : SpecState → Prop
  | SpecState.flat => s.position = 0
  | SpecState.long e es => s.position = 1 ∧ s.entryTime = some e ∧ s.entryPrice = es
  | SpecState.short e es => s.position = -1 ∧ s.entryTime = some e ∧ s.entryPrice = es

/-- The single-position invariant of the loop state at time `t`: completed
trades exited in the past and opened before they closed; the trade log is
ordered with each exit before the next entry and exits chronological; and an
open position records an entry time in the past, later than every completed
exit. -/
def TradeInv (t : ℕ) (s : BtState) : Prop :=
  (∀ tr ∈ s.trades, tr.exit_time < t ∧ tr.entry_time < tr.exit_time) ∧
  List.Chain' (fun a b => a.exit_time < b.entry_time) s.trades ∧
  List.Chain' (fun a b => a.exit_time < b.exit_time) s.trades ∧
  (s.position ≠ 0 → ∃ e, s.entryTime = some e ∧ e < t ∧
    ∀ tr ∈ s.trades, tr.exit_time < e)

/-! ### Theorems -/

/-- Characterization of `parseFxPair`: it succeeds exactly on tickers with
exactly six alphabetic characters, splitting their uppercase 3+3. -/
theorem parseFxPair_eq (t : String) :
    parseFxPair t = if (alphaChars t).length = 6
      then Except.ok (firstAlpha3Upper t, nextAlpha3Upper t)
      else Except.error ("Unable to infer FX pair structure from ticker " ++ t
        ++ ". Provide a 6-letter pair") := by
  have h : parseFxPair t = if (alphaChars t).length = 6
      then Except.ok ((((alphaChars t).take 3).map Char.toUpper).asString,
                      ((((alphaChars t).drop 3).take 3).map Char.toUpper).asString)
      else Except.error ("Unable to infer FX pair structure from ticker " ++ t
        ++ ". Provide a 6-letter pair") := rfl
  rw [h]
  unfold firstAlpha3Upper nextAlpha3Upper alphaChars
  split
  · simp [List.map_take, List.map_drop]
  · rfl

/-- C5 (amended): `_parse_fx_pair` succeeds exactly when the ticker has
exactly six alphabetic characters — not "at least six" — and then returns
the base and quote codes: the first three and next three alphabetic
characters, uppercased; on any other alphabetic-character count (fewer or
more than six) it fails with the configuration error. -/
theorem parseFxPair_exactly_six (t : String) :
    (parseFxPair t).toOption = if (alphaChars t).length = 6
      then some (firstAlpha3Upper t, nextAlpha3Upper t) else none := by
  rw [parseFxPair_eq]
  split <;> rfl

/-- C5 counterexample: the ticker "EURUSDX" has seven (so at least six)
alphabetic characters, yet `_parse_fx_pair` fails on it, contradicting the
claim that parsing succeeds for every ticker with at least six alphabetic
characters. -/
theorem parseFxPair_seven_letters_fails :
    6 ≤ (alphaChars "EURUSDX").length ∧ (parseFxPair "EURUSDX").toOption = none := by
  constructor <;> decide

/-- C6 (amended): `_convert_currency` parses the FX ticker before the
equal-currency check, so with a ticker that does not have exactly six
alphabetic characters it fails even when source currency equals target
currency; with a well-formed ticker it behaves as claimed: pass-through on
equal currencies, pointwise multiplication when (source, target) =
(FX base, FX quote), pointwise division when (source, target) =
(FX quote, FX base), and failure otherwise. -/
theorem convertCurrency_characterization (prices : List ℚ) (src base fxPair : String)
    (fx : List ℚ) :
    (convertCurrency prices src base fxPair fx).toOption =
      if (alphaChars fxPair).length = 6 then
        (if src.map Char.toUpper = base.map Char.toUpper then some prices
         else if src.map Char.toUpper = firstAlpha3Upper fxPair
             ∧ base.map Char.toUpper = nextAlpha3Upper fxPair
           then some (List.zipWith (· * ·) prices fx)
         else if src.map Char.toUpper = nextAlpha3Upper fxPair
             ∧ base.map Char.toUpper = firstAlpha3Upper fxPair
           then some (List.zipWith (· / ·) prices fx)
         else none)
      else none := by
  unfold convertCurrency
  rw [parseFxPair_eq]
  by_cases h6 : (alphaChars fxPair).length = 6
  · simp only [h6, if_true]
    split_ifs <;> rfl
  · simp only [h6, if_false]
    rfl

/-- C6 counterexample: with source currency equal to target currency but a
malformed FX ticker ("XX"), `_convert_currency` fails instead of returning
the prices unmodified as the claim states. -/
theorem convertCurrency_malformed_ticker_not_passthrough :
    (convertCurrency [1] "USD" "USD" "XX" []).toOption = none := by
  decide

/-- A single aligned observation makes `estimate_hedge_ratio` (without
intercept) return the exact-fit ratio `x·y / x²` with no error. -/
theorem estimate_hedge_ratio_single_aux (t : ℕ) (x y : ℚ) :
    (innerJoin [(t, y)] [(t, x)]).length = 1 ∧
    estimate_hedge_ratio [(t, y)] [(t, x)] false =
      Except.ok ⟨x * y / (x * x), 0⟩ := by
  constructor
  · simp [innerJoin, List.lookup]
  · simp [estimate_hedge_ratio, innerJoin, List.lookup]

/-- C4 (amended): `estimate_hedge_ratio` performs no data-sufficiency check.
With a single aligned observation (fewer than 2) and no intercept it
succeeds, returning the exact-fit pseudo-inverse ratio `x·y / x²` (that is,
`y / x` for `x ≠ 0`) instead of failing with a data-insufficiency error. -/
theorem estimate_hedge_ratio_single_point (t : ℕ) (x y : ℚ) :
    (innerJoin [(t, y)] [(t, x)]).length = 1 ∧
    estimate_hedge_ratio [(t, y)] [(t, x)] false =
      Except.ok ⟨x * y / (x * x), 0⟩ :=
  estimate_hedge_ratio_single_aux t x y

/-- C4 counterexample: at the concrete one-observation input
`series_a = [(0, 6)]`, `series_b = [(0, 2)]` (one aligned point, fewer than
two), `estimate_hedge_ratio` returns ratio `3` successfully rather than
failing with a data-insufficiency error. -/
theorem estimate_hedge_ratio_no_insufficiency_error :
    (innerJoin [(0, (6 : ℚ))] [(0, (2 : ℚ))]).length < 2 ∧
    (estimate_hedge_ratio [(0, (6 : ℚ))] [(0, (2 : ℚ))] false).toOption =
      some ⟨3, 0⟩ := by
  have h := estimate_hedge_ratio_single_aux 0 2 6
  refine ⟨by rw [h.1]; norm_num, ?_⟩
  rw [h.2]
  norm_num
  rfl

/-- The population variance is nonnegative. -/
theorem popVar_nonneg (l : List ℝ) : 0 ≤ popVar l := by
  unfold popVar
  apply div_nonneg
  · apply List.sum_nonneg
    intro x hx
    simp only [List.mem_map] at hx
    obtain ⟨y, -, rfl⟩ := hx
    positivity
  · positivity

/-- The population standard deviation squares back to the population
variance. -/
theorem popStd_sq (l : List ℝ) : popStd l ^ 2 = popVar l :=
  Real.sq_sqrt (popVar_nonneg l)

/-- The `sharpe` field of `_compute_stats`, as computed by the source. -/
theorem computeStats_sharpe (ec : List ℝ) (trades : List Trade) :
    (computeStats ec trades).sharpe =
      if listDiff ec ≠ [] ∧ popStd (listDiff ec) ≠ 0
      then listMean (listDiff ec) / popStd (listDiff ec) else 0 := rfl

/-- C7: an empty spread is not an error: `backtest_bollinger` returns zero
trades, an empty equity curve and all-zero stats, and an empty windows list
makes `run_multi_window_backtest` return an empty mapping. -/
theorem backtest_empty_inputs (window : ℕ) (num_std fee : ℝ) (spread : List ℝ) :
    (backtest_bollinger [] window num_std fee).trades = [] ∧
    (backtest_bollinger [] window num_std fee).equity_curve = [] ∧
    (backtest_bollinger [] window num_std fee).stats = ⟨0, 0, 0, 0, 0, 0, 0⟩ ∧
    run_multi_window_backtest spread [] num_std fee = [] :=
  ⟨rfl, rfl, rfl, rfl⟩

/-- C9: the Sharpe ratio of `_compute_stats` is the mean of the
period-over-period equity changes (`diff` then `dropna`: one fewer entry
than the curve) divided by their population standard deviation
(a nonnegative square root of the population variance), and is exactly `0`
whenever the change list is empty or has zero population standard
deviation. -/
theorem sharpe_characterization (ec : List ℝ) (trades : List Trade) :
    (computeStats ec trades).sharpe =
      (if listDiff ec = [] ∨ popStd (listDiff ec) = 0 then 0
       else listMean (listDiff ec) / popStd (listDiff ec)) ∧
    (listDiff ec).length = ec.length - 1 ∧
    0 ≤ popStd (listDiff ec) ∧
    popStd (listDiff ec) ^ 2 = popVar (listDiff ec) := by
  refine ⟨?_, ?_, Real.sqrt_nonneg _, popStd_sq _⟩
  · rw [computeStats_sharpe]
    by_cases h1 : listDiff ec = [] <;> by_cases h2 : popStd (listDiff ec) = 0 <;>
      simp [h1, h2]
  · simp [listDiff, List.length_tail]

/-- Element lookup in a map over `List.range`. -/
theorem getD_map_range {α : Type} (f : ℕ → α) (n i : ℕ) (d : α) :
    ((List.range n).map f).getD i d = if i < n then f i else d := by
  by_cases h : i < n
  · simp [List.getD_eq_getElem?_getD, List.getElem?_range h, h]
  · simp only [List.getD_eq_getElem?_getD, List.getElem?_map]
    rw [List.getElem?_eq_none (by simpa using le_of_not_lt h)]
    simp [h]

/-- `optZipWith` over two maps of the same index list. -/
theorem optZipWith_map (f : ℝ → ℝ → ℝ) (g h : ℕ → Option ℝ) (l : List ℕ) :
    optZipWith f (l.map g) (l.map h) =
      l.map (fun i => match g i, h i with
        | some a, some b => some (f a b)
        | _, _ => none) := by
  induction l with
  | nil => rfl
  | cons i rest ih =>
    simp only [List.map_cons]
    unfold optZipWith at ih ⊢
    simp only [List.zipWith_cons_cons, ih]

/-- A rolling statistic with window `w + 1`: undefined for the first `w`
positions, and past warm-up the trailing window is drop-then-take. -/
theorem rollingApply_succ (w : ℕ) (f : List ℝ → ℝ) (xs : List ℝ) :
    rollingApply (w + 1) f xs = (List.range xs.length).map
      (fun i => if i < w then none else some (f (trailingWindow (w + 1) xs i))) := by
  unfold rollingApply
  apply List.map_congr_left
  intro i _
  by_cases hw : i < w
  · have h1 : i + 1 < w + 1 := by omega
    simp [h1, hw]
  · have h1 : ¬(i + 1 < w + 1) := by omega
    have harith : i + 1 - (w + 1) + (w + 1) = i + 1 := by omega
    have hwin : windowAt (w + 1) xs i = trailingWindow (w + 1) xs i := by
      unfold windowAt trailingWindow
      rw [List.take_drop, harith]
    simp [h1, hw, hwin]

/-- The rolling mean of `compute_bollinger_bands` with window `w + 1`. -/
theorem bands_mean_eq (xs : List ℝ) (w : ℕ) (k : ℝ) :
    (compute_bollinger_bands xs (w + 1) k).mean =
      (List.range xs.length).map (fun i => if i < w then none
        else some (listMean (trailingWindow (w + 1) xs i))) := by
  show rollingApply (w + 1) listMean xs = _
  exact rollingApply_succ w listMean xs

/-- The rolling population standard deviation of `compute_bollinger_bands`
with window `w + 1`. -/
theorem bands_std_eq (xs : List ℝ) (w : ℕ) (k : ℝ) :
    (compute_bollinger_bands xs (w + 1) k).std =
      (List.range xs.length).map (fun i => if i < w then none
        else some (popStd (trailingWindow (w + 1) xs i))) := by
  show rollingApply (w + 1) popStd xs = _
  exact rollingApply_succ w popStd xs

/-- The upper band of `compute_bollinger_bands` with window `w + 1`. -/
theorem bands_upper_eq (xs : List ℝ) (w : ℕ) (k : ℝ) :
    (compute_bollinger_bands xs (w + 1) k).upper =
      (List.range xs.length).map (fun i => if i < w then none
        else some (listMean (trailingWindow (w + 1) xs i)
          + k * popStd (trailingWindow (w + 1) xs i))) := by
  show optZipWith (fun m s => m + k * s)
      (rollingApply (w + 1) listMean xs) (rollingApply (w + 1) popStd xs) = _
  rw [rollingApply_succ, rollingApply_succ, optZipWith_map]
  apply List.map_congr_left
  intro i _
  by_cases hw : i < w <;> simp [hw]

/-- The lower band of `compute_bollinger_bands` with window `w + 1`. -/
theorem bands_lower_eq (xs : List ℝ) (w : ℕ) (k : ℝ) :
    (compute_bollinger_bands xs (w + 1) k).lower =
      (List.range xs.length).map (fun i => if i < w then none
        else some (listMean (trailingWindow (w + 1) xs i)
          - k * popStd (trailingWindow (w + 1) xs i))) := by
  show optZipWith (fun m s => m - k * s)
      (rollingApply (w + 1) listMean xs) (rollingApply (w + 1) popStd xs) = _
  rw [rollingApply_succ, rollingApply_succ, optZipWith_map]
  apply List.map_congr_left
  intro i _
  by_cases hw : i < w <;> simp [hw]

/-- C8: with window `w + 1 ≥ 1` and multiplier `k`, the bands all live on
the spread's index; mean and standard deviation are taken over the trailing
window (undefined for the first `w` positions, and of exactly `w + 1`
observations wherever defined); the standard deviation is the nonnegative
square root of the population variance of that window;
`upper = mean + k·std` and `lower = mean − k·std` pointwise; and with
`k = 0`, `upper = lower = mean`. -/
theorem bollinger_bands_spec (xs : List ℝ) (w : ℕ) (k : ℝ) :
    (compute_bollinger_bands xs (w + 1) k).mean.length = xs.length ∧
    (compute_bollinger_bands xs (w + 1) k).std.length = xs.length ∧
    (compute_bollinger_bands xs (w + 1) k).upper.length = xs.length ∧
    (compute_bollinger_bands xs (w + 1) k).lower.length = xs.length ∧
    (compute_bollinger_bands xs (w + 1) k).mean =
      (List.range xs.length).map (fun i => if i < w then none
        else some (listMean (trailingWindow (w + 1) xs i))) ∧
    (compute_bollinger_bands xs (w + 1) k).upper =
      (List.range xs.length).map (fun i => if i < w then none
        else some (listMean (trailingWindow (w + 1) xs i)
          + k * popStd (trailingWindow (w + 1) xs i))) ∧
    (compute_bollinger_bands xs (w + 1) k).lower =
      (List.range xs.length).map (fun i => if i < w then none
        else some (listMean (trailingWindow (w + 1) xs i)
          - k * popStd (trailingWindow (w + 1) xs i))) ∧
    (∀ i : ℕ, Option.elim ((compute_bollinger_bands xs (w + 1) k).mean.getD i none) True
      (fun _ => (trailingWindow (w + 1) xs i).length = w + 1)) ∧
    (∀ i : ℕ, Option.elim ((compute_bollinger_bands xs (w + 1) k).std.getD i none) True
      (fun s => 0 ≤ s ∧ s ^ 2 = popVar (trailingWindow (w + 1) xs i))) ∧
    (compute_bollinger_bands xs (w + 1) 0).upper =
      (compute_bollinger_bands xs (w + 1) 0).mean ∧
    (compute_bollinger_bands xs (w + 1) 0).lower =
      (compute_bollinger_bands xs (w + 1) 0).mean := by
  refine ⟨?_, ?_, ?_, ?_, bands_mean_eq xs w k, bands_upper_eq xs w k,
    bands_lower_eq xs w k, ?_, ?_, ?_, ?_⟩
  · rw [bands_mean_eq xs w k]; simp
  · rw [bands_std_eq xs w k]; simp
  · rw [bands_upper_eq xs w k]; simp
  · rw [bands_lower_eq xs w k]; simp
  · intro i
    rw [bands_mean_eq xs w k, getD_map_range]
    by_cases hn : i < xs.length
    · simp only [hn, if_true]
      by_cases hw : i < w
      · simp [hw]
      · simp only [hw, if_false, Option.elim]
        unfold trailingWindow
        simp only [List.length_take, List.length_drop]
        omega
    · simp [hn]
  · intro i
    rw [bands_std_eq xs w k, getD_map_range]
    by_cases hn : i < xs.length
    · simp only [hn, if_true]
      by_cases hw : i < w
      · simp [hw]
      · simp only [hw, if_false, Option.elim]
        exact ⟨Real.sqrt_nonneg _, popStd_sq _⟩
    · simp [hn]
  · rw [bands_upper_eq xs w 0, bands_mean_eq xs w 0]
    apply List.map_congr_left
    intro i _
    by_cases hw : i < w <;> simp [hw]
  · rw [bands_lower_eq xs w 0, bands_mean_eq xs w 0]
    apply List.map_congr_left
    intro i _
    by_cases hw : i < w <;> simp [hw]

/-- One loop iteration of the source refines one spec transition: related
states step to related states, and the source appends exactly the trade the
spec machine emits. -/
theorem step_refines (fee : ℝ) (t : ℕ) (s : BtState) (st : SpecState) (v : ℝ)
    (m u l : Option ℝ) (h : Rel s st) :
    (step fee t s v m u l).trades = s.trades ++ (specStep fee t v m u l st).2.toList ∧
    Rel (step fee t s v m u l) (specStep fee t v m u l st).1 := by
  cases st with
  | flat =>
    have hp : s.position = 0 := h
    cases m with
    | none => exact ⟨by simp [step, specStep], h⟩
    | some mv =>
      cases u with
      | none => exact ⟨by simp [step, specStep], h⟩
      | some uv =>
        cases l with
        | none => exact ⟨by simp [step, specStep], h⟩
        | some lv =>
          by_cases h1 : v ≤ lv
          · simp [step, specStep, Rel, hp, h1]
          · by_cases h2 : v ≥ uv
            · simp [step, specStep, Rel, hp, h1, h2]
            · simp [step, specStep, Rel, hp, h1, h2]
  | long e es =>
    obtain ⟨hp, he, hes⟩ := h
    cases m with
    | none => exact ⟨by simp [step, specStep], hp, he, hes⟩
    | some mv =>
      cases u with
      | none => exact ⟨by simp [step, specStep], hp, he, hes⟩
      | some uv =>
        cases l with
        | none => exact ⟨by simp [step, specStep], hp, he, hes⟩
        | some lv =>
          by_cases h1 : v ≥ mv
          · simp [step, specStep, Rel, hp, he, hes, h1]
          · simp [step, specStep, Rel, hp, he, hes, h1]
  | short e es =>
    obtain ⟨hp, he, hes⟩ := h
    cases m with
    | none => exact ⟨by simp [step, specStep], hp, he, hes⟩
    | some mv =>
      cases u with
      | none => exact ⟨by simp [step, specStep], hp, he, hes⟩
      | some uv =>
        cases l with
        | none => exact ⟨by simp [step, specStep], hp, he, hes⟩
        | some lv =>
          by_cases h1 : v ≤ mv
          · simp [step, specStep, Rel, hp, he, hes, h1]
          · simp [step, specStep, Rel, hp, he, hes, h1]

/-- Running the source loop from a state related to a spec state produces
exactly the trades the spec machine emits, appended to the existing log. -/
theorem btRun_refines (fee : ℝ) (rows : List (ℝ × Option ℝ × Option ℝ × Option ℝ)) :
    ∀ (t : ℕ) (s : BtState) (st : SpecState), Rel s st →
    (btRun fee t rows s).trades = s.trades ++ specRun fee t rows st := by
  induction rows with
  | nil => intro t s st _; simp [btRun, specRun]
  | cons r rest ih =>
    intro t s st h
    obtain ⟨v, m, u, l⟩ := r
    have hs := step_refines fee t s st v m u l h
    show (btRun fee (t + 1) rest (step fee t s v m u l)).trades = _
    rw [ih (t + 1) _ _ hs.2, hs.1, specRun]
    simp [List.append_assoc]

/-- C1: `backtest_bollinger` is the spec's FLAT/LONG/SHORT state machine run
chronologically over the spread against the bands computed from it, starting
FLAT: no transition while a band value is undefined; FLAT enters long at
`value ≤ lower` and short at `value ≥ upper` recording entry time and entry
spread; LONG exits at `value ≥ mean` emitting a long trade with
`pnl = exit − entry − fee`; SHORT exits at `value ≤ mean` emitting a short
trade with `pnl = entry − exit − fee`; all comparisons inclusive
(see `specStep`). -/
theorem backtest_refines_spec_machine (spread : List ℝ) (window : ℕ)
    (num_std fee : ℝ) :
    (backtest_bollinger spread window num_std fee).trades =
      specRun fee 0 (btRows spread window num_std) SpecState.flat ∧
    btRows spread window num_std =
      spread.zip ((compute_bollinger_bands spread window num_std).mean.zip
        ((compute_bollinger_bands spread window num_std).upper.zip
          (compute_bollinger_bands spread window num_std).lower)) := by
  refine ⟨?_, rfl⟩
  have h := btRun_refines fee (btRows spread window num_std) 0 initState
    SpecState.flat rfl
  simpa [backtest_bollinger, initState] using h

/-- The loop of `backtest_bollinger` visits one row per spread element. -/
theorem btRows_length (spread : List ℝ) (window : ℕ) (num_std : ℝ) :
    (btRows spread window num_std).length = spread.length := by
  unfold btRows compute_bollinger_bands
  simp [optZipWith, rollingApply, List.length_zip]

/-- A non-exit iteration (equity and trades unchanged, running equity
appended) preserves the equity-curve invariant. -/
theorem equity_inv_keep (t : ℕ) (s s' : BtState)
    (hT : s'.trades = s.trades) (hE : s'.equity = s.equity)
    (hV : s'.equityValues = s.equityValues ++ [s.equity])
    (h1 : s.equity = (s.trades.map (·.pnl)).sum)
    (h2 : s.equityValues = (List.range t).map
      (fun i => ((s.trades.filter (fun tr => tr.exit_time ≤ i)).map (·.pnl)).sum))
    (h3 : ∀ tr ∈ s.trades, tr.exit_time < t) :
    s'.equity = (s'.trades.map (·.pnl)).sum ∧
    s'.equityValues = (List.range (t + 1)).map
      (fun i => ((s'.trades.filter (fun tr => tr.exit_time ≤ i)).map (·.pnl)).sum) ∧
    (∀ tr ∈ s'.trades, tr.exit_time < t + 1) := by
  have hfil : s.trades.filter (fun tr => tr.exit_time ≤ t) = s.trades :=
    List.filter_eq_self.mpr (fun tr htr => by simp [Nat.le_of_lt (h3 tr htr)])
  refine ⟨by rw [hE, hT, h1], ?_, ?_⟩
  · have hft : ((s.trades.filter (fun tr => tr.exit_time ≤ t)).map (·.pnl)).sum
        = s.equity := by rw [hfil, ← h1]
    rw [hV, hT, List.range_succ, List.map_append, ← h2]
    simp [hft]
  · intro tr htr
    rw [hT] at htr
    exact Nat.lt_succ_of_lt (h3 tr htr)

/-- An exit iteration (one trade closed at the current timestamp, its pnl
realized into equity) preserves the equity-curve invariant. -/
theorem equity_inv_exit (t : ℕ) (s s' : BtState) (tr0 : Trade)
    (hT : s'.trades = s.trades ++ [tr0]) (hex : tr0.exit_time = t)
    (hE : s'.equity = s.equity + tr0.pnl)
    (hV : s'.equityValues = s.equityValues ++ [s.equity + tr0.pnl])
    (h1 : s.equity = (s.trades.map (·.pnl)).sum)
    (h2 : s.equityValues = (List.range t).map
      (fun i => ((s.trades.filter (fun tr => tr.exit_time ≤ i)).map (·.pnl)).sum))
    (h3 : ∀ tr ∈ s.trades, tr.exit_time < t) :
    s'.equity = (s'.trades.map (·.pnl)).sum ∧
    s'.equityValues = (List.range (t + 1)).map
      (fun i => ((s'.trades.filter (fun tr => tr.exit_time ≤ i)).map (·.pnl)).sum) ∧
    (∀ tr ∈ s'.trades, tr.exit_time < t + 1) := by
  have hfil_lt : ∀ i, i < t →
      (s.trades ++ [tr0]).filter (fun tr => tr.exit_time ≤ i)
        = s.trades.filter (fun tr => tr.exit_time ≤ i) := by
    intro i hi
    rw [List.filter_append]
    have hnil : [tr0].filter (fun tr => tr.exit_time ≤ i) = [] := by
      simp only [List.filter, hex]
      have : ¬ (t ≤ i) := by omega
      simp [this]
    rw [hnil, List.append_nil]
  have hfil_t : (s.trades ++ [tr0]).filter (fun tr => tr.exit_time ≤ t)
      = s.trades ++ [tr0] := by
    apply List.filter_eq_self.mpr
    intro tr htr
    rcases List.mem_append.mp htr with hmem | hmem
    · simp [Nat.le_of_lt (h3 tr hmem)]
    · simp only [List.mem_singleton] at hmem
      subst hmem
      simp [hex]
  refine ⟨?_, ?_, ?_⟩
  · rw [hE, hT, List.map_append, List.sum_append, h1]
    simp
  · rw [hV, hT, List.range_succ, List.map_append]
    congr 1
    · rw [h2]
      apply List.map_congr_left
      intro i hi
      rw [hfil_lt i (List.mem_range.mp hi)]
    · simp only [List.map_cons, List.map_nil]
      rw [hfil_t, List.map_append, List.sum_append, ← h1]
      simp
  · intro tr htr
    rw [hT] at htr
    rcases List.mem_append.mp htr with hmem | hmem
    · exact Nat.lt_succ_of_lt (h3 tr hmem)
    · simp only [List.mem_singleton] at hmem
      subst hmem
      omega

/-- One loop iteration preserves the equity-curve invariant. -/
theorem step_equity_inv (fee : ℝ) (t : ℕ) (s : BtState) (v : ℝ) (m u l : Option ℝ)
    (h1 : s.equity = (s.trades.map (·.pnl)).sum)
    (h2 : s.equityValues = (List.range t).map
      (fun i => ((s.trades.filter (fun tr => tr.exit_time ≤ i)).map (·.pnl)).sum))
    (h3 : ∀ tr ∈ s.trades, tr.exit_time < t) :
    (step fee t s v m u l).equity = (((step fee t s v m u l).trades).map (·.pnl)).sum ∧
    (step fee t s v m u l).equityValues = (List.range (t + 1)).map
      (fun i => (((step fee t s v m u l).trades.filter
        (fun tr => tr.exit_time ≤ i)).map (·.pnl)).sum) ∧
    (∀ tr ∈ (step fee t s v m u l).trades, tr.exit_time < t + 1) := by
  cases m with
  | none => exact equity_inv_keep t s _ rfl rfl rfl h1 h2 h3
  | some mv =>
    cases u with
    | none => exact equity_inv_keep t s _ rfl rfl rfl h1 h2 h3
    | some uv =>
      cases l with
      | none => exact equity_inv_keep t s _ rfl rfl rfl h1 h2 h3
      | some lv =>
        by_cases hp0 : s.position = 0
        · by_cases hlo : v ≤ lv
          · refine equity_inv_keep t s _ ?_ ?_ ?_ h1 h2 h3 <;>
              simp [step, hp0, hlo]
          · by_cases hup : v ≥ uv
            · refine equity_inv_keep t s _ ?_ ?_ ?_ h1 h2 h3 <;>
                simp [step, hp0, hlo, hup]
            · refine equity_inv_keep t s _ ?_ ?_ ?_ h1 h2 h3 <;>
                simp [step, hp0, hlo, hup]
        · by_cases hp1 : s.position = 1
          · by_cases hm : v ≥ mv
            · refine equity_inv_exit t s _
                ⟨s.entryTime.getD 0, t, "long", s.entryPrice, v, v - s.entryPrice - fee, fee⟩
                ?_ rfl ?_ ?_ h1 h2 h3 <;> simp [step, hp0, hp1, hm]
            · refine equity_inv_keep t s _ ?_ ?_ ?_ h1 h2 h3 <;>
                simp [step, hp0, hp1, hm]
          · by_cases hpm : s.position = -1
            · by_cases hm : v ≤ mv
              · refine equity_inv_exit t s _
                  ⟨s.entryTime.getD 0, t, "short", s.entryPrice, v, s.entryPrice - v - fee, fee⟩
                  ?_ rfl ?_ ?_ h1 h2 h3 <;> simp [step, hp0, hp1, hpm, hm]
              · refine equity_inv_keep t s _ ?_ ?_ ?_ h1 h2 h3 <;>
                  simp [step, hp0, hp1, hpm, hm]
            · refine equity_inv_keep t s _ ?_ ?_ ?_ h1 h2 h3 <;>
                simp [step, hp0, hp1, hpm]

/-- Running the loop preserves the equity-curve invariant over all remaining
rows. -/
theorem btRun_equity_inv (fee : ℝ) (rows : List (ℝ × Option ℝ × Option ℝ × Option ℝ)) :
    ∀ (t : ℕ) (s : BtState),
    s.equity = (s.trades.map (·.pnl)).sum →
    s.equityValues = (List.range t).map
      (fun i => ((s.trades.filter (fun tr => tr.exit_time ≤ i)).map (·.pnl)).sum) →
    (∀ tr ∈ s.trades, tr.exit_time < t) →
    (btRun fee t rows s).equity = (((btRun fee t rows s).trades).map (·.pnl)).sum ∧
    (btRun fee t rows s).equityValues = (List.range (t + rows.length)).map
      (fun i => (((btRun fee t rows s).trades.filter
        (fun tr => tr.exit_time ≤ i)).map (·.pnl)).sum) ∧
    (∀ tr ∈ (btRun fee t rows s).trades, tr.exit_time < t + rows.length) := by
  induction rows with
  | nil => intro t s h1 h2 h3; exact ⟨h1, by simpa using h2, fun tr htr => by
      simpa using h3 tr htr⟩
  | cons r rest ih =>
    intro t s h1 h2 h3
    obtain ⟨v, m, u, l⟩ := r
    obtain ⟨g1, g2, g3⟩ := step_equity_inv fee t s v m u l h1 h2 h3
    have h := ih (t + 1) (step fee t s v m u l) g1 g2 g3
    have hrun : btRun fee t ((v, m, u, l) :: rest) s
        = btRun fee (t + 1) rest (step fee t s v m u l) := rfl
    rw [hrun, List.length_cons,
      show t + (rest.length + 1) = t + 1 + rest.length from by omega]
    exact h

/-- C3: the equity curve of `backtest_bollinger` has one entry per spread
timestamp, and its value at every position `i` is exactly the summed pnl of
the trades whose exit is at or before `i` — cumulative realized P&L only:
`0` through warm-up, changed only at trade-exit timestamps, never showing
unrealized P&L of an open position. -/
theorem equity_curve_characterization (spread : List ℝ) (window : ℕ)
    (num_std fee : ℝ) :
    (backtest_bollinger spread window num_std fee).equity_curve.length = spread.length ∧
    (backtest_bollinger spread window num_std fee).equity_curve =
      (List.range spread.length).map (fun i =>
        (((backtest_bollinger spread window num_std fee).trades.filter
          (fun tr => tr.exit_time ≤ i)).map (·.pnl)).sum) := by
  have h := btRun_equity_inv fee (btRows spread window num_std) 0 initState
    (by simp [initState]) (by simp [initState]) (by simp [initState])
  have hlen := btRows_length spread window num_std
  rw [hlen] at h
  have hcurve : (backtest_bollinger spread window num_std fee).equity_curve
      = (btRun fee 0 (btRows spread window num_std) initState).equityValues := rfl
  have htr : (backtest_bollinger spread window num_std fee).trades
      = (btRun fee 0 (btRows spread window num_std) initState).trades := rfl
  constructor
  · rw [hcurve, h.2.1]
    simp
  · rw [hcurve, htr, h.2.1]
    simp

/-- A non-transition iteration preserves the single-position invariant. -/
theorem tradeInv_keep (t : ℕ) (s s' : BtState)
    (hT : s'.trades = s.trades) (hP : s'.position = s.position)
    (hEt : s'.entryTime = s.entryTime) (h : TradeInv t s) : TradeInv (t + 1) s' := by
  obtain ⟨h1, h2, h3, h4⟩ := h
  refine ⟨?_, by rw [hT]; exact h2, by rw [hT]; exact h3, ?_⟩
  · intro tr htr
    rw [hT] at htr
    exact ⟨Nat.lt_succ_of_lt (h1 tr htr).1, (h1 tr htr).2⟩
  · intro hp
    rw [hP] at hp
    obtain ⟨e, he, hlt, hall⟩ := h4 hp
    exact ⟨e, by rw [hEt]; exact he, Nat.lt_succ_of_lt hlt, by rw [hT]; exact hall⟩

/-- An entry iteration (from flat, recording the current timestamp)
preserves the single-position invariant. -/
theorem tradeInv_enter (t : ℕ) (s s' : BtState)
    (hT : s'.trades = s.trades) (hEt : s'.entryTime = some t)
    (h : TradeInv t s) : TradeInv (t + 1) s' := by
  obtain ⟨h1, h2, h3, _⟩ := h
  refine ⟨?_, by rw [hT]; exact h2, by rw [hT]; exact h3, ?_⟩
  · intro tr htr
    rw [hT] at htr
    exact ⟨Nat.lt_succ_of_lt (h1 tr htr).1, (h1 tr htr).2⟩
  · intro _
    refine ⟨t, hEt, Nat.lt_succ_self t, ?_⟩
    intro tr htr
    rw [hT] at htr
    exact (h1 tr htr).1

/-- An exit iteration (closing the open position into a trade exiting now,
whose entry is the recorded entry time) preserves the single-position
invariant. -/
theorem tradeInv_exit (t : ℕ) (s s' : BtState) (tr0 : Trade)
    (hT : s'.trades = s.trades ++ [tr0]) (hP : s'.position = 0)
    (hex : tr0.exit_time = t) (hen : tr0.entry_time = s.entryTime.getD 0)
    (hpos : s.position ≠ 0) (h : TradeInv t s) : TradeInv (t + 1) s' := by
  obtain ⟨h1, h2, h3, h4⟩ := h
  obtain ⟨e, he, hlt, hall⟩ := h4 hpos
  have hee : tr0.entry_time = e := by rw [hen, he]; rfl
  refine ⟨?_, ?_, ?_, ?_⟩
  · intro tr htr
    rw [hT] at htr
    rcases List.mem_append.mp htr with hm | hm
    · exact ⟨Nat.lt_succ_of_lt (h1 tr hm).1, (h1 tr hm).2⟩
    · simp only [List.mem_singleton] at hm
      subst hm
      refine ⟨by omega, ?_⟩
      rw [hee, hex]
      exact hlt
  · rw [hT, List.chain'_append]
    refine ⟨h2, List.chain'_singleton tr0, ?_⟩
    intro x hx y hy
    simp only [List.head?_cons, Option.mem_def, Option.some.injEq] at hy
    subst hy
    rw [hee]
    exact hall x (List.mem_of_mem_getLast? hx)
  · rw [hT, List.chain'_append]
    refine ⟨h3, List.chain'_singleton tr0, ?_⟩
    intro x hx y hy
    simp only [List.head?_cons, Option.mem_def, Option.some.injEq] at hy
    subst hy
    rw [hex]
    exact (h1 x (List.mem_of_mem_getLast? hx)).1
  · intro hp
    rw [hP] at hp
    exact absurd rfl hp

/-- One loop iteration preserves the single-position invariant. -/
theorem step_tradeInv (fee : ℝ) (t : ℕ) (s : BtState) (v : ℝ) (m u l : Option ℝ)
    (h : TradeInv t s) : TradeInv (t + 1) (step fee t s v m u l) := by
  cases m with
  | none => exact tradeInv_keep t s _ rfl rfl rfl h
  | some mv =>
    cases u with
    | none => exact tradeInv_keep t s _ rfl rfl rfl h
    | some uv =>
      cases l with
      | none => exact tradeInv_keep t s _ rfl rfl rfl h
      | some lv =>
        by_cases hp0 : s.position = 0
        · by_cases hlo : v ≤ lv
          · refine tradeInv_enter t s _ ?_ ?_ h <;> simp [step, hp0, hlo]
          · by_cases hup : v ≥ uv
            · refine tradeInv_enter t s _ ?_ ?_ h <;> simp [step, hp0, hlo, hup]
            · refine tradeInv_keep t s _ ?_ ?_ ?_ h <;> simp [step, hp0, hlo, hup]
        · by_cases hp1 : s.position = 1
          · by_cases hm : v ≥ mv
            · refine tradeInv_exit t s _
                ⟨s.entryTime.getD 0, t, "long", s.entryPrice, v, v - s.entryPrice - fee, fee⟩
                ?_ ?_ rfl rfl hp0 h <;> simp [step, hp0, hp1, hm]
            · refine tradeInv_keep t s _ ?_ ?_ ?_ h <;> simp [step, hp0, hp1, hm]
          · by_cases hpm : s.position = -1
            · by_cases hm : v ≤ mv
              · refine tradeInv_exit t s _
                  ⟨s.entryTime.getD 0, t, "short", s.entryPrice, v, s.entryPrice - v - fee, fee⟩
                  ?_ ?_ rfl rfl hp0 h <;> simp [step, hp0, hp1, hpm, hm]
              · refine tradeInv_keep t s _ ?_ ?_ ?_ h <;> simp [step, hp0, hp1, hpm, hm]
            · refine tradeInv_keep t s _ ?_ ?_ ?_ h <;> simp [step, hp0, hp1, hpm]

/-- Running the loop preserves the single-position invariant. -/
theorem btRun_tradeInv (fee : ℝ) (rows : List (ℝ × Option ℝ × Option ℝ × Option ℝ)) :
    ∀ (t : ℕ) (s : BtState), TradeInv t s →
    TradeInv (t + rows.length) (btRun fee t rows s) := by
  induction rows with
  | nil => intro t s h; simpa [btRun] using h
  | cons r rest ih =>
    intro t s h
    obtain ⟨v, m, u, l⟩ := r
    have h2 := ih (t + 1) (step fee t s v m u l) (step_tradeInv fee t s v m u l h)
    rw [show btRun fee t ((v, m, u, l) :: rest) s
        = btRun fee (t + 1) rest (step fee t s v m u l) from rfl,
      List.length_cons,
      show t + (rest.length + 1) = t + 1 + rest.length from by omega]
    exact h2

/-- The invariant holds before the loop starts. -/
theorem tradeInv_init : TradeInv 0 initState :=
  ⟨by simp [initState], by simp [initState], by simp [initState],
    fun hp => absurd rfl hp⟩

/-- The position variable stays in `{0, 1, -1}` across one iteration. -/
theorem step_position_mem (fee : ℝ) (t : ℕ) (s : BtState) (v : ℝ)
    (m u l : Option ℝ) (h : s.position = 0 ∨ s.position = 1 ∨ s.position = -1) :
    (step fee t s v m u l).position = 0 ∨ (step fee t s v m u l).position = 1 ∨
      (step fee t s v m u l).position = -1 := by
  unfold step
  cases m with
  | none => simpa using h
  | some mv =>
    cases u with
    | none => simpa using h
    | some uv =>
      cases l with
      | none => simpa using h
      | some lv =>
        by_cases hp0 : s.position = 0
        · simp only [hp0, if_true]
          split_ifs <;> simp
        · simp only [hp0, if_false]
          by_cases hp1 : s.position = 1
          · simp only [hp1, if_true]
            split_ifs <;> simpa using h
          · simp only [hp1, if_false]
            by_cases hpm : s.position = -1
            · simp only [hpm, if_true]
              split_ifs <;> simpa using h
            · simp only [hpm, if_false]
              rcases h with h | h | h
              exacts [Or.inl h, Or.inr (Or.inl h), absurd h hpm]

/-- One iteration appends a trade exactly when an open position returns to
flat. -/
theorem step_trades_delta (fee : ℝ) (t : ℕ) (s : BtState) (v : ℝ)
    (m u l : Option ℝ) :
    (step fee t s v m u l).trades.length = s.trades.length +
      (if s.position ≠ 0 ∧ (step fee t s v m u l).position = 0 then 1 else 0) := by
  unfold step
  cases m with
  | none => by_cases hp : s.position = 0 <;> simp [hp]
  | some mv =>
    cases u with
    | none => by_cases hp : s.position = 0 <;> simp [hp]
    | some uv =>
      cases l with
      | none => by_cases hp : s.position = 0 <;> simp [hp]
      | some lv =>
        by_cases hp0 : s.position = 0
        · simp only [hp0, if_true]
          split_ifs <;> simp_all
        · simp only [hp0, if_false]
          by_cases hp1 : s.position = 1
          · simp only [hp1, if_true]
            split_ifs <;> simp_all
          · simp only [hp1, if_false]
            by_cases hpm : s.position = -1
            · simp only [hpm, if_true]
              split_ifs <;> simp_all
            · simp only [hpm, if_false]
              simp [hp0]

/-- The position trace always starts with the current position. -/
theorem posStates_shape (fee : ℝ) (rows : List (ℝ × Option ℝ × Option ℝ × Option ℝ))
    (t : ℕ) (s : BtState) : ∃ tl, posStates fee t rows s = s.position :: tl := by
  cases rows with
  | nil => exact ⟨[], rfl⟩
  | cons r rest =>
    obtain ⟨v, m, u, l⟩ := r
    exact ⟨_, rfl⟩

/-- Unfolding `countCycles` on two leading entries. -/
theorem countCycles_cons_cons (p q : Int) (tl : List Int) :
    countCycles (p :: q :: tl) = (if p ≠ 0 ∧ q = 0 then 1 else 0)
      + countCycles (q :: tl) := rfl

/-- The trade log grows by exactly the number of completed cycles visible in
the position trace. -/
theorem btRun_cycles (fee : ℝ) (rows : List (ℝ × Option ℝ × Option ℝ × Option ℝ)) :
    ∀ (t : ℕ) (s : BtState),
    (btRun fee t rows s).trades.length
      = s.trades.length + countCycles (posStates fee t rows s) := by
  induction rows with
  | nil => intro t s; simp [btRun, posStates, countCycles]
  | cons r rest ih =>
    intro t s
    obtain ⟨v, m, u, l⟩ := r
    obtain ⟨tl, htl⟩ := posStates_shape fee rest (t + 1) (step fee t s v m u l)
    rw [show btRun fee t ((v, m, u, l) :: rest) s
        = btRun fee (t + 1) rest (step fee t s v m u l) from rfl,
      ih (t + 1) (step fee t s v m u l),
      show posStates fee t ((v, m, u, l) :: rest) s
        = s.position :: posStates fee (t + 1) rest (step fee t s v m u l) from rfl,
      htl, countCycles_cons_cons, ← htl,
      step_trades_delta fee t s v m u l]
    omega

/-- Every entry of the position trace is `0`, `1` or `-1`. -/
theorem posStates_forall (fee : ℝ) (rows : List (ℝ × Option ℝ × Option ℝ × Option ℝ)) :
    ∀ (t : ℕ) (s : BtState), (s.position = 0 ∨ s.position = 1 ∨ s.position = -1) →
    List.Forall (fun p => p = 0 ∨ p = 1 ∨ p = -1) (posStates fee t rows s) := by
  induction rows with
  | nil =>
    intro t s h
    simpa [posStates] using h
  | cons r rest ih =>
    intro t s h
    obtain ⟨v, m, u, l⟩ := r
    rw [show posStates fee t ((v, m, u, l) :: rest) s
        = s.position :: posStates fee (t + 1) rest (step fee t s v m u l) from rfl,
      List.forall_cons]
    exact ⟨h, ih (t + 1) _ (step_position_mem fee t s v m u l h)⟩

/-- C2: over any run of `backtest_bollinger`, the engine's position variable
is always one of flat/long/short (at most one open position, no direct
reversal — a transition out of an open position only goes to flat, as the
trade log's ordering shows: each exit strictly precedes the next entry);
trade exits are in chronological order; and the number of trades equals the
number of completed entry/exit cycles of the position trace. -/
theorem single_position_invariants (spread : List ℝ) (window : ℕ)
    (num_std fee : ℝ) :
    List.Forall (fun p => p = 0 ∨ p = 1 ∨ p = -1)
      (posTrace spread window num_std fee) ∧
    List.Chain' (fun a b => a.exit_time < b.entry_time)
      (backtest_bollinger spread window num_std fee).trades ∧
    List.Chain' (fun a b => a.exit_time < b.exit_time)
      (backtest_bollinger spread window num_std fee).trades ∧
    (backtest_bollinger spread window num_std fee).trades.length
      = countCycles (posTrace spread window num_std fee) := by
  have h := btRun_tradeInv fee (btRows spread window num_std) 0 initState tradeInv_init
  refine ⟨posStates_forall fee _ 0 initState (Or.inl rfl), h.2.1, h.2.2.1, ?_⟩
  have hc := btRun_cycles fee (btRows spread window num_std) 0 initState
  simpa [posTrace, initState] using hc

/-- C10: every trade of `backtest_bollinger` is opened strictly before it is
closed — a position entered at a timestamp is never exited at that same
timestamp, because the source's `if`/`elif` chain does not test the exit
condition in the iteration that entered. -/
theorem trades_entry_before_exit (spread : List ℝ) (window : ℕ)
    (num_std fee : ℝ) :
    List.Forall (fun tr => tr.entry_time < tr.exit_time)
      (backtest_bollinger spread window num_std fee).trades := by
  have h := btRun_tradeInv fee (btRows spread window num_std) 0 initState tradeInv_init
  rw [List.forall_iff_forall_mem]
  intro tr htr
  exact (h.1 tr htr).2

end StatArb
